import Mathlib

/-!
Verification development for the cdc-sink resolved-timestamp resolver core.

The Go sources are shallowly embedded: pure helpers become Lean functions,
SQL statements acting on the staging/checkpoint meta-table are modelled as
functions over an explicit list of rows with the statement's relational
semantics, and the resolver's process/flush control flow is modelled as a
state-passing recursion that records a trace of the externally visible
calls (OnBegin, OnData, OnCommit, Record, SetConsistentPoint).
-/

/-- Modelled from the spec: the hlc package is not under src/. Spec section 3
defines an HLC as an immutable pair (nanos i64, logical i32) with
lexicographic ordering and sentinel Zero = (0, 0). -/
structure Hlc where
  nanos : Int
  logical : Int
deriving DecidableEq, Repr

/-- Modelled from the spec: hlc.Zero, the (0,0) sentinel. -/
def hlcZero : Hlc := ⟨0, 0⟩

/-- Lexicographic strict order on (nanos, logical); this is also the SQL
tuple comparison `(a, b) > (c, d)` used by markTemplate. -/
def hlcLt (a b : Hlc) : Prop :=
  a.nanos < b.nanos ∨ (a.nanos = b.nanos ∧ a.logical < b.logical)

instance (a b : Hlc) : Decidable (hlcLt a b) := by
  unfold hlcLt
  exact inferInstance

/-- Lexicographic order, non-strict; the SQL tuple comparison
`(a, b) >= (c, d)` of selectTimestampTemplate is hlcLe in the other
direction. -/
def hlcLe (a b : Hlc) : Prop :=
  a.nanos < b.nanos ∨ (a.nanos = b.nanos ∧ a.logical ≤ b.logical)

instance (a b : Hlc) : Decidable (hlcLe a b) := by
  unfold hlcLe
  exact inferInstance

/-- Modelled from the spec: hlc.Compare, the three-way comparison consistent
with the lexicographic total order of spec section 3. -/
def hlcCompare (a b : Hlc) : Int :=
  if hlcLt a b then -1 else if a = b then 0 else 1

/-- Embedding of types.Mutation (src/internal/types/types.go): Data and Key
are byte slices, Time is an HLC. The dialect-specific Meta map is ignored
by the core and omitted here. -/
structure Mutation where
  data : List UInt8
  key : List UInt8
  time : Hlc
deriving DecidableEq, Repr

/-- Embedding of the package-level `nullBytes = []byte("null")` of types.go. -/
def nullBytes : List UInt8 := [110, 117, 108, 108]

/-- Embedding of Mutation.IsDelete (types.go lines 130-132):
`len(m.Data) == 0 || bytes.Equal(m.Data, nullBytes)`. -/
def Mutation.IsDelete (m : Mutation) : Bool :=
  m.data.length == 0 || m.data == nullBytes

/-- Embedding of the seenIdx lookup in msort.UniqueByKey: the region
x[dest:] of the array holds one representative per key, and seenIdx maps a
key to its representative's index; here the region is the list `reps` and
the lookup finds the unique element carrying the key. -/
def findByKey : List Mutation → List UInt8 → Option Mutation
  | [], _ => none
  | r :: rs, k => if r.key = k then some r else findByKey rs k

/-- Embedding of the write `x[curIdx] = x[src]` in msort.UniqueByKey: the
region element holding the key is overwritten in place. -/
def replaceByKey : List Mutation → List UInt8 → Mutation → List Mutation
  | [], _, _ => []
  | r :: rs, k, m => if r.key = k then m :: rs else r :: replaceByKey rs k m

/-- Embedding of the loop of msort.UniqueByKey (src/unnamed/part_003 lines
219-241). The Go loop walks src from len(x)-1 down to 0, so the list
`todo` here is the input reversed; `reps` is the compacted region x[dest:]
(new keys are written at the decreasing dest, i.e. prepended). The panic on
an empty Key is modelled as `none`. -/
def uniqueByKeyGo : List Mutation → List Mutation → Option (List Mutation)
  | [], reps => some reps
  | m :: todo, reps =>
    if m.key = [] then none
    else
      match findByKey reps m.key with
      | some cur =>
        if hlcCompare m.time cur.time > 0 then
          uniqueByKeyGo todo (replaceByKey reps m.key m)
        else
          uniqueByKeyGo todo reps
      | none => uniqueByKeyGo todo (m :: reps)

/-- Embedding of msort.UniqueByKey (src/unnamed/part_003 lines 210-245).
Returns the compacted slice x[dest:], or `none` where the Go code panics. -/
def UniqueByKey (x : List Mutation) : Option (List Mutation) :=
  uniqueByKeyGo x.reverse []

/-- Embedding of one row of the resolved-checkpoints meta-table created by
the schema constant in src/unnamed/part_000 lines 234-242: target_schema,
source_nanos, source_logical, nullable target_applied_at. -/
structure CkptRow where
  targetSchema : String
  sourceNanos : Int
  sourceLogical : Int
  targetAppliedAt : Option Int
deriving DecidableEq, Repr

/-- HLC tuple carried by a checkpoint row. -/
def rowTime (r : CkptRow) : Hlc := ⟨r.sourceNanos, r.sourceLogical⟩

/-- Maximum of a list of HLC values, `none` on the empty list. This is the
relational semantics of `ORDER BY source_nanos desc, source_logical desc
LIMIT 1`. -/
def maxHlc : List Hlc → Option Hlc
  | [] => none
  | t :: ts =>
    match maxHlc ts with
    | none => some t
    | some m => if hlcLt t m then some m else some t

/-- Minimum of a list of HLC values, `none` on the empty list. This is the
relational semantics of `ORDER BY source_nanos, source_logical LIMIT 1`. -/
def minHlc : List Hlc → Option Hlc
  | [] => none
  | t :: ts =>
    match minHlc ts with
    | none => some t
    | some m => if hlcLt t m then some t else some m

/-- Embedding of the not_before CTE of markTemplate (src/unnamed/part_000
lines 313-319): the latest (nanos, logical) pair recorded for the target
schema, if any. -/
def notBefore (rows : List CkptRow) (s : String) : Option Hlc :=
  maxHlc ((rows.filter (fun r => r.targetSchema == s)).map rowTime)

/-- Embedding of markTemplate (src/unnamed/part_000 lines 312-325): insert
(schema, ts) exactly when the schema has no recorded checkpoint or the
proposed tuple is strictly greater than the latest one; returns the new row
set and the number of rows affected. -/
def markExec (rows : List CkptRow) (s : String) (ts : Hlc) : List CkptRow × Nat :=
  match notBefore rows s with
  | none => (rows ++ [⟨s, ts.nanos, ts.logical, none⟩], 1)
  | some mx =>
    if hlcLt mx ts then (rows ++ [⟨s, ts.nanos, ts.logical, none⟩], 1)
    else (rows, 0)

/-- Embedding of resolver.Mark (src/unnamed/part_000 lines 327-350) over the
row-set model: executes markTemplate; when zero rows are affected it logs
and returns nil, otherwise it signals `marked` and returns nil. Output is
(rows after, inserted flag, returned error). -/
def Mark (rows : List CkptRow) (s : String) (ts : Hlc) :
    List CkptRow × Bool × Option String :=
  let res := markExec rows s ts
  if res.2 == 0 then (res.1, false, none) else (res.1, true, none)

/-- Outcome of resolver.selectTimestamp: a SQL error propagates, pgx.ErrNoRows
becomes the errNoWork sentinel, and otherwise the scanned HLC is returned. -/
inductive SelectTsResult
  | sqlErr (e : String)
  | noWork
  | found (t : Hlc)
deriving DecidableEq, Repr

/-- Predicate of the WHERE clause of selectTimestampTemplate
(src/unnamed/part_000 lines 696-704): target_schema matches, (nanos,
logical) >= (after.nanos, after.logical), and target_applied_at IS NULL. -/
def ckptMatches (s : String) (after : Hlc) (r : CkptRow) : Prop :=
  r.targetSchema = s ∧ hlcLe after (rowTime r) ∧ r.targetAppliedAt = none

instance (s : String) (after : Hlc) (r : CkptRow) : Decidable (ckptMatches s after r) := by
  unfold ckptMatches
  exact inferInstance

/-- Embedding of resolver.selectTimestamp (src/unnamed/part_000 lines
714-729) over the row-set model. The `dbErr` argument injects a SQL error
returned by QueryRow.Scan; otherwise the template's relational semantics
choose the least qualifying tuple, and an empty result becomes errNoWork. -/
def selectTimestamp (rows : List CkptRow) (s : String) (after : Hlc)
    (dbErr : Option String) : SelectTsResult :=
  match dbErr with
  | some e => .sqlErr e
  | none =>
    match minHlc ((rows.filter (fun r => decide (ckptMatches s after r))).map rowTime) with
    | none => .noWork
    | some t => .found t

/-- Embedding of the table iteration inside resolver.retireLoop
(src/unnamed/part_000 lines 739-762): for each target table, when
RetireOffset is positive the captured `next` variable is reassigned to
`hlc.New(next.Nanos()-off.Nanoseconds(), next.Logical())` and then
stager.Retire is invoked with it. Returns the (table, bound) sequence of
Retire calls of one pass. -/
def retireCalls (tables : List String) (next : Hlc) (off : Int) : List (String × Hlc) :=
  match tables with
  | [] => []
  | t :: rest =>
    let next2 := if off > 0 then Hlc.mk (next.nanos - off) next.logical else next
    (t, next2) :: retireCalls rest next2 off

/-- Modelled from the spec: the resolvedStamp type is not under src/. Spec
section 3 lists its fields: CommittedTime, ProposedTime, Backfill and the
mid-scan OffsetTable / OffsetKey / OffsetTime cursor. -/
structure ResolvedStamp where
  committedTime : Hlc
  proposedTime : Hlc
  backfill : Bool
  offsetTable : String
  offsetKey : List UInt8
  offsetTime : Hlc
deriving Repr

/-- Modelled from the spec: resolver.ZeroStamp returns an empty
resolvedStamp (all fields zero). -/
def zeroStamp : ResolvedStamp :=
  ⟨hlcZero, hlcZero, false, "", [], hlcZero⟩

/-- Modelled from the spec: resolvedStamp.NewCommitted moves the proposed
time into the committed slot (spec section 3: transition Proposed →
Committed with committed = proposed) and clears the proposal and offsets. -/
def ResolvedStamp.newCommitted (rs : ResolvedStamp) : ResolvedStamp :=
  ⟨rs.proposedTime, hlcZero, rs.backfill, "", [], hlcZero⟩

/-- Modelled from the spec: resolvedStamp.NewProgress copies the SelectMany
cursor's current offsets into the stamp (spec section 3: transition
Proposed → Proposed with updated offsets). -/
def ResolvedStamp.newProgress (rs : ResolvedStamp) (offTable : String)
    (offKey : List UInt8) (offTime : Hlc) : ResolvedStamp :=
  ⟨rs.committedTime, rs.proposedTime, rs.backfill, offTable, offKey, offTime⟩

/-- Modelled from the spec: resolvedStamp.NewProposed verifies that the
stamp is rolling forward (spec section 3 invariant: ProposedTime >
CommittedTime) and installs the proposal. -/
def ResolvedStamp.newProposed (rs : ResolvedStamp) (next : Hlc) :
    Except String ResolvedStamp :=
  if hlcLt rs.committedTime next then
    .ok ⟨rs.committedTime, next, rs.backfill, rs.offsetTable, rs.offsetKey, rs.offsetTime⟩
  else
    .error "proposed timestamp is not after committed timestamp"

/-- One externally visible call issued by the flush closure of
resolver.process, together with whether it succeeded. -/
inductive BatchCall
  | callBegin (ok : Bool)
  | callData (table : String) (muts : List Mutation) (ok : Bool)
  | callCommit (ok : Bool)
  | callRecord (ts : Hlc) (ok : Bool)
  | callSetCP (rs : ResolvedStamp) (ok : Bool)

/-- Outcomes injected for the external calls made by one flush invocation:
a `some e` makes the corresponding call return error e (for OnCommit, makes
the channel deliver e). This mirrors the chaos wrappers of
src/unnamed/part_002, which can fail any of these entry points. -/
structure FlushOracle where
  beginErr : Option String
  dataErr : String → Option String
  commitErr : Option String
  recordErr : Option String
  setCPErr : Option String

/-- Oracle under which every external call succeeds. -/
def allOk : FlushOracle :=
  ⟨none, fun _ => none, none, none, none⟩

/-- Embedding of the nested table loop of the flush closure
(src/unnamed/part_000 lines 580-590): walk the FK groups of `targets` in
order and the tables within each group in order (i.e. targets.flatten), skip a
table whose buffer is empty, call OnData otherwise, and stop at the first
error. Returns the calls made and the first error. -/
def onDataLoop (o : FlushOracle) (toApply : String → List Mutation) :
    List String → List BatchCall × Option String
  | [] => ([], none)
  | t :: rest =>
    if toApply t = [] then onDataLoop o toApply rest
    else
      match o.dataErr t with
      | some e => ([.callData t (toApply t) false], some e)
      | none =>
        let res := onDataLoop o toApply rest
        (.callData t (toApply t) true :: res.1, res.2)

/-- Embedding of the flush closure of resolver.process (src/unnamed/part_000
lines 567-627): OnBegin, then OnData per non-empty table in FK-group order,
then wait on OnCommit; on success, for the final flush advance the stamp
with NewCommitted and Record the committed time, otherwise take the
NewProgress stamp passed by the caller; finally SetConsistentPoint. The
`persisted` value models the durably stored consistent point: it changes
exactly when SetConsistentPoint succeeds. Output is
(calls, returned error, the rs variable after the call, persisted after). -/
def flushModel (o : FlushOracle) (targets : List (List String))
    (toApply : String → List Mutation) (final : Bool)
    (rs progressRs : ResolvedStamp) (persisted : Option ResolvedStamp) :
    List BatchCall × Option String × ResolvedStamp × Option ResolvedStamp :=
  match o.beginErr with
  | some e => ([.callBegin false], some e, rs, persisted)
  | none =>
    match onDataLoop o toApply (targets.flatten) with
    | (dcalls, some e) => (.callBegin true :: dcalls, some e, rs, persisted)
    | (dcalls, none) =>
      match o.commitErr with
      | some e => (.callBegin true :: dcalls ++ [.callCommit false], some e, rs, persisted)
      | none =>
        match final with
        | true =>
          let rs2 := rs.newCommitted
          match o.recordErr with
          | some e =>
            (.callBegin true :: dcalls ++ [.callCommit true, .callRecord rs2.committedTime false],
             some e, rs2, persisted)
          | none =>
            match o.setCPErr with
            | some e =>
              (.callBegin true :: dcalls ++
                [.callCommit true, .callRecord rs2.committedTime true, .callSetCP rs2 false],
               some e, rs2, persisted)
            | none =>
              (.callBegin true :: dcalls ++
                [.callCommit true, .callRecord rs2.committedTime true, .callSetCP rs2 true],
               none, rs2, some rs2)
        | false =>
          let rs2 := progressRs
          match o.setCPErr with
          | some e =>
            (.callBegin true :: dcalls ++ [.callCommit true, .callSetCP rs2 false],
             some e, rs2, persisted)
          | none =>
            (.callBegin true :: dcalls ++ [.callCommit true, .callSetCP rs2 true],
             none, rs2, some rs2)

/-- Embedding of the two knobs of Config consulted by the accumulation loop
of resolver.process. -/
structure ProcCfg where
  idealFlushBatchSize : Nat
  flushEveryTimestamp : Bool

/-- Embedding of the needsFlush decision of resolver.process
(src/unnamed/part_000 lines 636-656), computed before a mutation is
buffered: backfill mode flushes on the soft batch limit alone;
FlushEveryTimestamp flushes on every MVCC boundary change; the default
transactional mode requires both the soft limit and an epoch change. -/
def needsFlush (cfg : ProcCfg) (backfill : Bool) (flushCounter : Nat)
    (epoch : Hlc) (mutTime : Hlc) : Bool :=
  if backfill then
    decide (flushCounter ≥ cfg.idealFlushBatchSize)
  else if cfg.flushEveryTimestamp then
    decide (epoch ≠ hlcZero) && decide (hlcCompare mutTime epoch > 0)
  else
    decide (flushCounter ≥ cfg.idealFlushBatchSize) && decide (hlcCompare mutTime epoch > 0)

/-- Mutable state of the accumulation loop of resolver.process: the epoch
and flushCounter variables, the per-table toApply buffers, the rs variable,
the SelectMany cursor offsets, and bookkeeping — the durably persisted
consistent point, the flush invocation counter used to index oracles, the
trace of external calls, the arrival-order content of the current buffers
(`buf`) and the interim batches already flushed (`batches`). -/
structure ProcState where
  epoch : Hlc
  flushCounter : Nat
  toApply : String → List Mutation
  rs : ResolvedStamp
  offTable : String
  offKey : List UInt8
  offTime : Hlc
  persisted : Option ResolvedStamp
  flushIdx : Nat
  trace : List BatchCall
  buf : List (String × Mutation)
  batches : List (List (String × Mutation))

/-- Buffering step of the SelectMany callback (src/unnamed/part_000 lines
670-674): increment flushCounter, append the mutation to its table's
buffer, advance the epoch to the mutation's time; the cursor offsets move
to the emitted row. -/
def bufferMut (st : ProcState) (tbl : String) (m : Mutation) : ProcState :=
  { st with
    flushCounter := st.flushCounter + 1,
    toApply := fun t => if t = tbl then st.toApply tbl ++ [m] else st.toApply t,
    epoch := m.time,
    offTable := tbl,
    offKey := m.key,
    offTime := m.time,
    buf := st.buf ++ [(tbl, m)] }

/-- Embedding of the SelectMany callback loop and final flush of
resolver.process (src/unnamed/part_000 lines 629-683): for each delivered
(table, mutation), if needsFlush holds run an interim flush (stopping with
its error if it fails, resetting the counter and the buffers otherwise) and
then buffer the mutation; after the stream, run the final flush. -/
def procGo (cfg : ProcCfg) (targets : List (List String))
    (oracles : Nat → FlushOracle) :
    List (String × Mutation) → ProcState → ProcState × Option String
  | [], st =>
    match flushModel (oracles st.flushIdx) targets st.toApply true st.rs
      (st.rs.newProgress st.offTable st.offKey st.offTime) st.persisted with
    | (calls, res, rs2, p2) =>
      ({ st with
          rs := rs2,
          persisted := p2,
          trace := st.trace ++ calls,
          flushIdx := st.flushIdx + 1,
          buf := [],
          batches := st.batches ++ [st.buf] },
       res)
  | (tbl, m) :: rest, st =>
    match needsFlush cfg st.rs.backfill st.flushCounter st.epoch m.time with
    | true =>
      match flushModel (oracles st.flushIdx) targets st.toApply false st.rs
        (st.rs.newProgress st.offTable st.offKey st.offTime) st.persisted with
      | (calls, some e, rs2, p2) =>
        ({ st with
            rs := rs2,
            persisted := p2,
            trace := st.trace ++ calls,
            flushIdx := st.flushIdx + 1 },
         some e)
      | (calls, none, rs2, p2) =>
        procGo cfg targets oracles rest
          (bufferMut
            { st with
              rs := rs2,
              persisted := p2,
              trace := st.trace ++ calls,
              flushIdx := st.flushIdx + 1,
              flushCounter := 0,
              toApply := fun _ => [],
              buf := [],
              batches := st.batches ++ [st.buf] }
            tbl m)
    | false =>
      procGo cfg targets oracles rest (bufferMut st tbl m)

/-- Initial loop state of resolver.process: zero epoch and counter, empty
buffers, cursor offsets taken from the incoming stamp. -/
def initProcState (rs : ResolvedStamp) (persisted : Option ResolvedStamp) : ProcState :=
  ⟨hlcZero, 0, fun _ => [], rs, rs.offsetTable, rs.offsetKey, rs.offsetTime,
   persisted, 0, [], [], []⟩

/-- Embedding of resolver.process (src/unnamed/part_000 lines 547-691): it
reads the watcher's table order and fails with a descriptive error before
any other work when no tables are known; otherwise it runs the
accumulation loop over the delivered mutations followed by the final
flush. -/
def processModel (cfg : ProcCfg) (targets : List (List String))
    (oracles : Nat → FlushOracle) (target : String) (rs : ResolvedStamp)
    (input : List (String × Mutation)) (persisted : Option ResolvedStamp) :
    ProcState × Option String :=
  if targets = [] then
    (initProcState rs persisted,
     some ("no tables known in schema " ++ target ++ "; have they been created?"))
  else
    procGo cfg targets oracles input (initProcState rs persisted)

/-- Outcome injected for resolver.selectTimestamp as observed by the reader
loop (resolver.nextProposedStamp). -/
inductive ProposeOutcome
  | ok (next : Hlc)
  | noWork
  | err (e : String)

/-- Embedding of resolver.nextProposedStamp (src/unnamed/part_000 lines
477-499): on a selected timestamp, roll the stamp forward with NewProposed
and propagate the backfilling flag; sentinel and error outcomes pass
through. -/
def nextProposedStampModel (prev : ResolvedStamp) (sel : ProposeOutcome)
    (backfill : Bool) : Except String (Option ResolvedStamp) :=
  match sel with
  | .noWork => .ok none
  | .err e => .error e
  | .ok next =>
    match prev.newProposed next with
    | .error e => .error e
    | .ok ret =>
      if backfill then .ok (some { ret with backfill := true })
      else .ok (some ret)

/-- Embedding of one resume decision of resolver.readInto
(src/unnamed/part_000 lines 386-421): when the stamp recovered from
GetConsistentPoint carries a non-zero ProposedTime it is sent as-is and the
resolved store is not consulted; otherwise nextProposedStamp runs against
the store. The Bool records whether the store was consulted. -/
def readIntoStep (resumeFrom : ResolvedStamp) (sel : ProposeOutcome)
    (backfill : Bool) : Except String (Option ResolvedStamp) × Bool :=
  if resumeFrom.proposedTime ≠ hlcZero then
    (.ok (some resumeFrom), false)
  else
    match nextProposedStampModel resumeFrom sel backfill with
    | .ok (some proposed) => (.ok (some proposed), true)
    | .ok none => (.ok none, true)
    | .error e => (.error e, true)

/-- Sequence of successful OnData calls a flush makes: one per table of the
flattened FK-group order whose buffer is non-empty, in order. -/
def flushDataCalls (toApply : String → List Mutation) : List String → List BatchCall
  | [] => []
  | t :: rest =>
    if toApply t = [] then flushDataCalls toApply rest
    else .callData t (toApply t) true :: flushDataCalls toApply rest

/-- Value of the durably persisted consistent point after a trace of calls:
the stamp carried by the last successful SetConsistentPoint call, or the
initial value when there is none. -/
def lastSetCPWrite (init : Option ResolvedStamp) (trace : List BatchCall) :
    Option ResolvedStamp :=
  trace.foldl
    (fun acc c =>
      match c with
      | .callSetCP rs2 true => some rs2
      | _ => acc)
    init

/-- Oracle in which the commit wait delivers an error. -/
def commitErrOracle : FlushOracle := ⟨none, fun _ => none, some "boom", none, none⟩

/-- Single-mutation buffers used by concrete flush evaluations. -/
def oneMutBuffers : String → List Mutation := fun _ => [⟨[], [107], ⟨1, 0⟩⟩]

/-- Buffers that are non-empty for tables "a" and "c" and empty for "b". -/
def skipBBuffers : String → List Mutation :=
  fun t => if t = "b" then [] else [⟨[], [107], ⟨1, 0⟩⟩]

/-- Delivery order of SelectMany in transactional mode: mutation times are
non-decreasing. -/
def pairTimeLe (a b : String × Mutation) : Prop :=
  hlcLe a.2.time b.2.time

/-- Strict time separation between two flushed batches: every mutation of
the first batch is earlier than every mutation of the second. -/
def batchSep (b1 b2 : List (String × Mutation)) : Prop :=
  ∀ m1 ∈ b1, ∀ m2 ∈ b2, hlcLt m1.2.time m2.2.time

/-- A mutation of the input is covered by the output: some retained
mutation carries the same key and a time at least as large. -/
def covers (out : List Mutation) (m : Mutation) : Prop :=
  ∃ r ∈ out, r.key = m.key ∧ hlcLe m.time r.time

theorem hlc_lt_irrefl (a : Hlc) : ¬ hlcLt a a := by
  unfold hlcLt
  omega

theorem hlc_lt_trans {a b c : Hlc} (h1 : hlcLt a b) (h2 : hlcLt b c) : hlcLt a c := by
  unfold hlcLt at *
  omega

theorem hlc_le_refl (a : Hlc) : hlcLe a a := by
  unfold hlcLe
  omega

theorem hlc_le_trans {a b c : Hlc} (h1 : hlcLe a b) (h2 : hlcLe b c) : hlcLe a c := by
  unfold hlcLe at *
  omega

theorem hlc_le_lt_trans {a b c : Hlc} (h1 : hlcLe a b) (h2 : hlcLt b c) : hlcLt a c := by
  unfold hlcLe hlcLt at *
  omega

theorem hlc_lt_le_trans {a b c : Hlc} (h1 : hlcLt a b) (h2 : hlcLe b c) : hlcLt a c := by
  unfold hlcLe hlcLt at *
  omega

theorem hlc_lt_le {a b : Hlc} (h : hlcLt a b) : hlcLe a b := by
  unfold hlcLe hlcLt at *
  omega

theorem hlc_trichotomy (a b : Hlc) : hlcLt a b ∨ a = b ∨ hlcLt b a := by
  cases a with
  | mk an al =>
    cases b with
    | mk bn bl =>
      simp only [hlcLt, Hlc.mk.injEq]
      omega

theorem hlc_lt_asymm {a b : Hlc} (h : hlcLt a b) : ¬ hlcLt b a := by
  unfold hlcLt at *
  omega

theorem hlc_compare_pos_iff (a b : Hlc) : hlcCompare a b > 0 ↔ hlcLt b a := by
  rcases hlc_trichotomy a b with h | h | h
  · have hv : hlcCompare a b = -1 := by
      unfold hlcCompare
      rw [if_pos h]
    rw [hv]
    constructor
    · intro hc
      exact absurd hc (by norm_num)
    · intro hlt
      exact absurd hlt (hlc_lt_asymm h)
  · subst h
    have hv : hlcCompare a a = 0 := by
      unfold hlcCompare
      rw [if_neg (hlc_lt_irrefl a), if_pos rfl]
    rw [hv]
    constructor
    · intro hc
      exact absurd hc (by norm_num)
    · intro hlt
      exact absurd hlt (hlc_lt_irrefl a)
  · have hne : a ≠ b := by
      intro he
      subst he
      exact hlc_lt_irrefl a h
    have hv : hlcCompare a b = 1 := by
      unfold hlcCompare
      rw [if_neg (hlc_lt_asymm h), if_neg hne]
    rw [hv]
    constructor
    · intro _
      exact h
    · intro _
      norm_num

theorem hlc_not_lt_le {a b : Hlc} (h : ¬ hlcLt a b) : hlcLe b a := by
  unfold hlcLt at h
  unfold hlcLe
  omega

/-- C10: a Mutation is a delete exactly when its Data field is empty or is
the literal bytes `null`. -/
theorem isDelete_iff (m : Mutation) :
    m.IsDelete = true ↔ (m.data = [] ∨ m.data = nullBytes) := by
  unfold Mutation.IsDelete
  simp [List.length_eq_zero]

/-- C2: evaluation of one retire pass at a failing input. With two known
tables, committed time (10, 0) and RetireOffset of 1ns, the first table is
retired at bound (9, 0) but the second at (8, 0): the captured `next`
variable has the offset subtracted once more per table, so the two calls do
not receive the same adjusted bound committed minus RetireOffset. -/
theorem retire_double_offset_eval :
    retireCalls ["t1", "t2"] ⟨10, 0⟩ 1 =
      [("t1", ⟨9, 0⟩), ("t2", ⟨8, 0⟩)] ∧
    (⟨8, 0⟩ : Hlc) ≠ ⟨9, 0⟩ := by
  constructor
  · rfl
  · decide

/-- C7: when the stamp recovered from GetConsistentPoint carries a non-zero
ProposedTime, the reader emits exactly that stamp, unchanged, and does not
consult the resolved store for a new proposal. -/
theorem readinto_resume_unchanged (rs : ResolvedStamp) (sel : ProposeOutcome)
    (backfill : Bool) (h : rs.proposedTime ≠ hlcZero) :
    readIntoStep rs sel backfill = (.ok (some rs), false) := by
  unfold readIntoStep
  rw [if_pos h]

theorem readinto_resume_unchanged_witness :
    (⟨hlcZero, ⟨1, 0⟩, false, "", [], hlcZero⟩ : ResolvedStamp).proposedTime ≠ hlcZero ∧
    readIntoStep ⟨hlcZero, ⟨1, 0⟩, false, "", [], hlcZero⟩ .noWork false =
      (.ok (some ⟨hlcZero, ⟨1, 0⟩, false, "", [], hlcZero⟩), false) :=
  ⟨by decide, readinto_resume_unchanged _ _ _ (by decide)⟩

/-- C8: processing a proposal while the watcher reports no table ordering
fails with the descriptive error before any work: the trace of external
calls is empty, the persisted consistent point is untouched and no batch
was formed. -/
theorem process_empty_schema_error (cfg : ProcCfg) (oracles : Nat → FlushOracle)
    (target : String) (rs : ResolvedStamp) (input : List (String × Mutation))
    (persisted : Option ResolvedStamp) :
    processModel cfg [] oracles target rs input persisted =
      (initProcState rs persisted,
       some ("no tables known in schema " ++ target ++ "; have they been created?")) ∧
    (initProcState rs persisted).trace = [] ∧
    (initProcState rs persisted).persisted = persisted ∧
    (initProcState rs persisted).batches = [] := by
  refine ⟨?_, rfl, rfl, rfl⟩
  unfold processModel
  rw [if_pos rfl]

theorem maxHlc_cons_none (t : Hlc) (ts : List Hlc) (h : maxHlc ts = none) :
    maxHlc (t :: ts) = some t := by
  unfold maxHlc
  rw [h]

theorem maxHlc_cons_some (t : Hlc) (ts : List Hlc) (m : Hlc) (h : maxHlc ts = some m) :
    maxHlc (t :: ts) = if hlcLt t m then some m else some t := by
  unfold maxHlc
  rw [h]

theorem minHlc_cons_none (t : Hlc) (ts : List Hlc) (h : minHlc ts = none) :
    minHlc (t :: ts) = some t := by
  unfold minHlc
  rw [h]

theorem minHlc_cons_some (t : Hlc) (ts : List Hlc) (m : Hlc) (h : minHlc ts = some m) :
    minHlc (t :: ts) = if hlcLt t m then some t else some m := by
  unfold minHlc
  rw [h]

theorem maxHlc_eq_none_iff (l : List Hlc) : maxHlc l = none ↔ l = [] := by
  cases l with
  | nil => simp [maxHlc]
  | cons t ts =>
    constructor
    · intro h
      exfalso
      cases hm : maxHlc ts with
      | none => rw [maxHlc_cons_none t ts hm] at h; exact Option.some_ne_none t h
      | some m =>
        rw [maxHlc_cons_some t ts m hm] at h
        by_cases hlt : hlcLt t m
        · rw [if_pos hlt] at h; exact Option.some_ne_none m h
        · rw [if_neg hlt] at h; exact Option.some_ne_none t h
    · intro h
      exact absurd h (List.cons_ne_nil t ts)

theorem minHlc_eq_none_iff (l : List Hlc) : minHlc l = none ↔ l = [] := by
  cases l with
  | nil => simp [minHlc]
  | cons t ts =>
    constructor
    · intro h
      exfalso
      cases hm : minHlc ts with
      | none => rw [minHlc_cons_none t ts hm] at h; exact Option.some_ne_none t h
      | some m =>
        rw [minHlc_cons_some t ts m hm] at h
        by_cases hlt : hlcLt t m
        · rw [if_pos hlt] at h; exact Option.some_ne_none t h
        · rw [if_neg hlt] at h; exact Option.some_ne_none m h
    · intro h
      exact absurd h (List.cons_ne_nil t ts)

theorem maxHlc_spec (l : List Hlc) (m : Hlc) (h : maxHlc l = some m) :
    m ∈ l ∧ ∀ t ∈ l, hlcLe t m := by
  induction l generalizing m with
  | nil => simp [maxHlc] at h
  | cons t ts ih =>
    cases hm : maxHlc ts with
    | none =>
      rw [maxHlc_cons_none t ts hm] at h
      injection h with h2
      subst h2
      have hts : ts = [] := (maxHlc_eq_none_iff ts).mp hm
      subst hts
      refine ⟨List.mem_singleton_self t, ?_⟩
      intro u hu
      rw [List.mem_singleton] at hu
      subst hu
      exact hlc_le_refl u
    | some mx =>
      rw [maxHlc_cons_some t ts mx hm] at h
      obtain ⟨hmem, hall⟩ := ih mx hm
      by_cases hlt : hlcLt t mx
      · rw [if_pos hlt] at h
        injection h with h2
        subst h2
        refine ⟨List.mem_cons_of_mem t hmem, ?_⟩
        intro u hu
        rcases List.mem_cons.mp hu with heq | hu2
        · subst heq
          exact hlc_lt_le hlt
        · exact hall u hu2
      · rw [if_neg hlt] at h
        injection h with h2
        subst h2
        refine ⟨List.mem_cons_self t ts, ?_⟩
        intro u hu
        rcases List.mem_cons.mp hu with heq | hu2
        · subst heq
          exact hlc_le_refl u
        · exact hlc_le_trans (hall u hu2) (hlc_not_lt_le hlt)

theorem minHlc_spec (l : List Hlc) (m : Hlc) (h : minHlc l = some m) :
    m ∈ l ∧ ∀ t ∈ l, hlcLe m t := by
  induction l generalizing m with
  | nil => simp [minHlc] at h
  | cons t ts ih =>
    cases hm : minHlc ts with
    | none =>
      rw [minHlc_cons_none t ts hm] at h
      injection h with h2
      subst h2
      have hts : ts = [] := (minHlc_eq_none_iff ts).mp hm
      subst hts
      refine ⟨List.mem_singleton_self t, ?_⟩
      intro u hu
      rw [List.mem_singleton] at hu
      subst hu
      exact hlc_le_refl u
    | some mx =>
      rw [minHlc_cons_some t ts mx hm] at h
      obtain ⟨hmem, hall⟩ := ih mx hm
      by_cases hlt : hlcLt t mx
      · rw [if_pos hlt] at h
        injection h with h2
        subst h2
        refine ⟨List.mem_cons_self t ts, ?_⟩
        intro u hu
        rcases List.mem_cons.mp hu with heq | hu2
        · subst heq
          exact hlc_le_refl u
        · exact hlc_le_trans (hlc_lt_le hlt) (hall u hu2)
      · rw [if_neg hlt] at h
        injection h with h2
        subst h2
        refine ⟨List.mem_cons_of_mem t hmem, ?_⟩
        intro u hu
        rcases List.mem_cons.mp hu with heq | hu2
        · subst heq
          exact hlc_not_lt_le hlt
        · exact hall u hu2

theorem notBefore_none_iff (rows : List CkptRow) (s : String) :
    notBefore rows s = none ↔ ∀ r ∈ rows, r.targetSchema ≠ s := by
  unfold notBefore
  rw [maxHlc_eq_none_iff, List.map_eq_nil_iff, List.filter_eq_nil_iff]
  constructor
  · intro h r hr hs
    exact absurd (by simp [hs]) (h r hr)
  · intro h r hr
    simp only [beq_iff_eq]
    exact h r hr

theorem notBefore_some_spec (rows : List CkptRow) (s : String) (mx : Hlc)
    (h : notBefore rows s = some mx) :
    (∃ r ∈ rows, r.targetSchema = s ∧ rowTime r = mx) ∧
    ∀ r ∈ rows, r.targetSchema = s → hlcLe (rowTime r) mx := by
  unfold notBefore at h
  obtain ⟨hmem, hall⟩ := maxHlc_spec _ _ h
  constructor
  · rcases List.mem_map.mp hmem with ⟨r, hr, hrt⟩
    rcases List.mem_filter.mp hr with ⟨hr2, hr3⟩
    exact ⟨r, hr2, by simpa using hr3, hrt⟩
  · intro r hr hs
    refine hall (rowTime r) (List.mem_map_of_mem rowTime ?_)
    exact List.mem_filter.mpr ⟨hr, by simp [hs]⟩

theorem markExec_of_none (rows : List CkptRow) (s : String) (ts : Hlc)
    (h : notBefore rows s = none) :
    markExec rows s ts = (rows ++ [⟨s, ts.nanos, ts.logical, none⟩], 1) := by
  unfold markExec
  rw [h]

theorem markExec_of_some (rows : List CkptRow) (s : String) (ts mx : Hlc)
    (h : notBefore rows s = some mx) :
    markExec rows s ts =
      if hlcLt mx ts then (rows ++ [⟨s, ts.nanos, ts.logical, none⟩], 1)
      else (rows, 0) := by
  unfold markExec
  rw [h]

theorem Mark_of_insert (rows : List CkptRow) (s : String) (ts : Hlc)
    (h : markExec rows s ts = (rows ++ [⟨s, ts.nanos, ts.logical, none⟩], 1)) :
    Mark rows s ts = (rows ++ [⟨s, ts.nanos, ts.logical, none⟩], true, none) := by
  unfold Mark
  rw [h]
  rfl

theorem Mark_of_noop (rows : List CkptRow) (s : String) (ts : Hlc)
    (h : markExec rows s ts = (rows, 0)) :
    Mark rows s ts = (rows, false, none) := by
  unfold Mark
  rw [h]
  rfl

/-- C1: Mark inserts the proposed checkpoint exactly when it is strictly
greater, in (nanos, logical) tuple order, than every checkpoint already
recorded for the schema (vacuously, when none exists); on insert the store
grows by exactly that row, otherwise the store is unchanged; and Mark
returns success either way, so successive stored checkpoints of a schema
are strictly increasing. -/
theorem mark_monotone (rows : List CkptRow) (s : String) (ts : Hlc) :
    ((Mark rows s ts).2.1 = true ↔
       ∀ r ∈ rows, r.targetSchema = s → hlcLt (rowTime r) ts) ∧
    ((Mark rows s ts).2.1 = true →
       (Mark rows s ts).1 = rows ++ [⟨s, ts.nanos, ts.logical, none⟩]) ∧
    ((Mark rows s ts).2.1 = false → (Mark rows s ts).1 = rows) ∧
    (Mark rows s ts).2.2 = none := by
  cases hnb : notBefore rows s with
  | none =>
    have hno := (notBefore_none_iff rows s).mp hnb
    rw [Mark_of_insert rows s ts (markExec_of_none rows s ts hnb)]
    refine ⟨?_, fun _ => rfl, ?_, rfl⟩
    · constructor
      · intro _ r hr hs
        exact absurd hs (hno r hr)
      · intro _
        rfl
    · intro hfalse
      exact absurd hfalse (by simp)
  | some mx =>
    obtain ⟨⟨r0, hr0, hr0s, hr0t⟩, hall⟩ := notBefore_some_spec rows s mx hnb
    by_cases hlt : hlcLt mx ts
    · rw [Mark_of_insert rows s ts (by rw [markExec_of_some rows s ts mx hnb, if_pos hlt])]
      refine ⟨?_, fun _ => rfl, ?_, rfl⟩
      · constructor
        · intro _ r hr hs
          exact hlc_le_lt_trans (hall r hr hs) hlt
        · intro _
          rfl
      · intro hfalse
        exact absurd hfalse (by simp)
    · rw [Mark_of_noop rows s ts (by rw [markExec_of_some rows s ts mx hnb, if_neg hlt])]
      refine ⟨?_, ?_, fun _ => rfl, rfl⟩
      · constructor
        · intro hfalse
          exact absurd hfalse (by simp)
        · intro hforall
          exfalso
          apply hlt
          rw [← hr0t]
          exact hforall r0 hr0 hr0s
      · intro hfalse
        exact absurd hfalse (by simp)

theorem mark_monotone_witness :
    (∀ r ∈ [(⟨"s", 5, 0, none⟩ : CkptRow)], r.targetSchema = "s" → hlcLt (rowTime r) ⟨6, 0⟩) ∧
    (Mark [⟨"s", 5, 0, none⟩] "s" ⟨6, 0⟩).1 =
      [⟨"s", 5, 0, none⟩] ++ [⟨"s", 6, 0, none⟩] :=
  ⟨by decide,
   (mark_monotone [⟨"s", 5, 0, none⟩] "s" ⟨6, 0⟩).2.1
     ((mark_monotone [⟨"s", 5, 0, none⟩] "s" ⟨6, 0⟩).1.mpr (by decide))⟩

/-- C5: against the row-set semantics of selectTimestampTemplate,
selectTimestamp yields the NoWork sentinel exactly when no row of the
schema has an unapplied (nanos, logical) tuple at or after `after`; a found
tuple is the least such tuple; and a SQL error propagates as an error
distinct from the sentinel. -/
theorem selectTimestamp_least_unapplied (rows : List CkptRow) (s : String) (after : Hlc) :
    (selectTimestamp rows s after none = .noWork ↔
       ∀ r ∈ rows, ¬ ckptMatches s after r) ∧
    (∀ t, selectTimestamp rows s after none = .found t →
       (∃ r ∈ rows, ckptMatches s after r ∧ rowTime r = t) ∧
       ∀ r ∈ rows, ckptMatches s after r → hlcLe t (rowTime r)) ∧
    (∀ e, selectTimestamp rows s after (some e) = .sqlErr e) := by
  refine ⟨?_, ?_, fun e => rfl⟩
  · unfold selectTimestamp
    cases hm : minHlc ((rows.filter (fun r => decide (ckptMatches s after r))).map rowTime) with
    | none =>
      have hemp := (minHlc_eq_none_iff _).mp hm
      rw [List.map_eq_nil_iff, List.filter_eq_nil_iff] at hemp
      constructor
      · intro _ r hr hc
        exact hemp r hr (by simpa using hc)
      · intro _
        rfl
    | some t =>
      constructor
      · intro hfalse
        exact absurd hfalse (by simp)
      · intro hforall
        exfalso
        obtain ⟨hmem, _⟩ := minHlc_spec _ _ hm
        rcases List.mem_map.mp hmem with ⟨r, hr, _⟩
        rcases List.mem_filter.mp hr with ⟨hr2, hr3⟩
        exact hforall r hr2 (by simpa using hr3)
  · intro t ht
    unfold selectTimestamp at ht
    cases hm : minHlc ((rows.filter (fun r => decide (ckptMatches s after r))).map rowTime) with
    | none =>
      rw [hm] at ht
      exact absurd ht (by simp)
    | some t2 =>
      rw [hm] at ht
      have ht2 : t2 = t := by
        injection ht
      subst ht2
      obtain ⟨hmem, hall⟩ := minHlc_spec _ _ hm
      constructor
      · rcases List.mem_map.mp hmem with ⟨r, hr, hrt⟩
        rcases List.mem_filter.mp hr with ⟨hr2, hr3⟩
        exact ⟨r, hr2, by simpa using hr3, hrt⟩
      · intro r hr hc
        refine hall (rowTime r) (List.mem_map_of_mem rowTime ?_)
        exact List.mem_filter.mpr ⟨hr, by simpa using hc⟩

theorem selectTimestamp_least_unapplied_witness :
    (selectTimestamp
        [⟨"s", 4, 0, some 7⟩, ⟨"s", 5, 0, none⟩, ⟨"s", 6, 0, none⟩, ⟨"u", 3, 0, none⟩]
        "s" ⟨5, 0⟩ none = .found ⟨5, 0⟩) ∧
    (∃ r ∈ [(⟨"s", 4, 0, some 7⟩ : CkptRow), ⟨"s", 5, 0, none⟩, ⟨"s", 6, 0, none⟩, ⟨"u", 3, 0, none⟩],
       ckptMatches "s" ⟨5, 0⟩ r ∧ rowTime r = ⟨5, 0⟩) ∧
    ∀ r ∈ [(⟨"s", 4, 0, some 7⟩ : CkptRow), ⟨"s", 5, 0, none⟩, ⟨"s", 6, 0, none⟩, ⟨"u", 3, 0, none⟩],
       ckptMatches "s" ⟨5, 0⟩ r → hlcLe ⟨5, 0⟩ (rowTime r) :=
  ⟨by decide,
   ((selectTimestamp_least_unapplied
       [⟨"s", 4, 0, some 7⟩, ⟨"s", 5, 0, none⟩, ⟨"s", 6, 0, none⟩, ⟨"u", 3, 0, none⟩]
       "s" ⟨5, 0⟩).2.1 ⟨5, 0⟩ (by decide)).1,
   ((selectTimestamp_least_unapplied
       [⟨"s", 4, 0, some 7⟩, ⟨"s", 5, 0, none⟩, ⟨"s", 6, 0, none⟩, ⟨"u", 3, 0, none⟩]
       "s" ⟨5, 0⟩).2.1 ⟨5, 0⟩ (by decide)).2⟩

theorem onDataLoop_ok (o : FlushOracle) (toApply : String → List Mutation)
    (h : ∀ t, o.dataErr t = none) (ts : List String) :
    onDataLoop o toApply ts = (flushDataCalls toApply ts, none) := by
  induction ts with
  | nil => rfl
  | cons t rest ih =>
    unfold onDataLoop flushDataCalls
    by_cases he : toApply t = []
    · rw [if_pos he, if_pos he]
      exact ih
    · rw [if_neg he, if_neg he, h t, ih]

theorem flushDataCalls_eq_filter_map (toApply : String → List Mutation) (ts : List String) :
    flushDataCalls toApply ts =
      (ts.filter (fun t => !decide (toApply t = []))).map
        (fun t => BatchCall.callData t (toApply t) true) := by
  induction ts with
  | nil => rfl
  | cons t rest ih =>
    unfold flushDataCalls
    by_cases he : toApply t = []
    · rw [if_pos he]
      simp [List.filter_cons, he, ih]
    · rw [if_neg he]
      simp [List.filter_cons, he, ih]

theorem onDataLoop_no_setcp (o : FlushOracle) (toApply : String → List Mutation)
    (ts : List String) (rs2 : ResolvedStamp) (ok : Bool) :
    BatchCall.callSetCP rs2 ok ∉ (onDataLoop o toApply ts).1 := by
  induction ts with
  | nil => simp [onDataLoop]
  | cons t rest ih =>
    unfold onDataLoop
    by_cases he : toApply t = []
    · rw [if_pos he]
      exact ih
    · rw [if_neg he]
      cases hd : o.dataErr t with
      | some e => simp
      | none =>
        simp only [List.mem_cons]
        rintro (hc | hc)
        · exact BatchCall.noConfusion hc
        · exact ih hc

theorem flushModel_begin_some (o : FlushOracle) (targets : List (List String))
    (toApply : String → List Mutation) (final : Bool) (rs prog : ResolvedStamp)
    (persisted : Option ResolvedStamp) (e : String) (h : o.beginErr = some e) :
    flushModel o targets toApply final rs prog persisted =
      ([.callBegin false], some e, rs, persisted) := by
  unfold flushModel
  rw [h]

theorem flushModel_data_some (o : FlushOracle) (targets : List (List String))
    (toApply : String → List Mutation) (final : Bool) (rs prog : ResolvedStamp)
    (persisted : Option ResolvedStamp) (dcalls : List BatchCall) (e : String)
    (hb : o.beginErr = none)
    (hd : onDataLoop o toApply (targets.flatten) = (dcalls, some e)) :
    flushModel o targets toApply final rs prog persisted =
      (.callBegin true :: dcalls, some e, rs, persisted) := by
  unfold flushModel
  rw [hb, hd]

theorem flushModel_commit_some (o : FlushOracle) (targets : List (List String))
    (toApply : String → List Mutation) (final : Bool) (rs prog : ResolvedStamp)
    (persisted : Option ResolvedStamp) (dcalls : List BatchCall) (e : String)
    (hb : o.beginErr = none)
    (hd : onDataLoop o toApply (targets.flatten) = (dcalls, none))
    (hc : o.commitErr = some e) :
    flushModel o targets toApply final rs prog persisted =
      (.callBegin true :: dcalls ++ [.callCommit false], some e, rs, persisted) := by
  unfold flushModel
  rw [hb, hd, hc]

theorem flushModel_final_record_some (o : FlushOracle) (targets : List (List String))
    (toApply : String → List Mutation) (rs prog : ResolvedStamp)
    (persisted : Option ResolvedStamp) (dcalls : List BatchCall) (e : String)
    (hb : o.beginErr = none)
    (hd : onDataLoop o toApply (targets.flatten) = (dcalls, none))
    (hc : o.commitErr = none) (hr : o.recordErr = some e) :
    flushModel o targets toApply true rs prog persisted =
      (.callBegin true :: dcalls ++
        [.callCommit true, .callRecord rs.newCommitted.committedTime false],
       some e, rs.newCommitted, persisted) := by
  unfold flushModel
  rw [hb, hd, hc, hr]

theorem flushModel_final_setcp_some (o : FlushOracle) (targets : List (List String))
    (toApply : String → List Mutation) (rs prog : ResolvedStamp)
    (persisted : Option ResolvedStamp) (dcalls : List BatchCall) (e : String)
    (hb : o.beginErr = none)
    (hd : onDataLoop o toApply (targets.flatten) = (dcalls, none))
    (hc : o.commitErr = none) (hr : o.recordErr = none) (hs : o.setCPErr = some e) :
    flushModel o targets toApply true rs prog persisted =
      (.callBegin true :: dcalls ++
        [.callCommit true, .callRecord rs.newCommitted.committedTime true,
         .callSetCP rs.newCommitted false],
       some e, rs.newCommitted, persisted) := by
  unfold flushModel
  rw [hb, hd, hc, hr, hs]

theorem flushModel_final_ok (o : FlushOracle) (targets : List (List String))
    (toApply : String → List Mutation) (rs prog : ResolvedStamp)
    (persisted : Option ResolvedStamp) (dcalls : List BatchCall)
    (hb : o.beginErr = none)
    (hd : onDataLoop o toApply (targets.flatten) = (dcalls, none))
    (hc : o.commitErr = none) (hr : o.recordErr = none) (hs : o.setCPErr = none) :
    flushModel o targets toApply true rs prog persisted =
      (.callBegin true :: dcalls ++
        [.callCommit true, .callRecord rs.newCommitted.committedTime true,
         .callSetCP rs.newCommitted true],
       none, rs.newCommitted, some rs.newCommitted) := by
  unfold flushModel
  rw [hb, hd, hc, hr, hs]

theorem flushModel_interim_setcp_some (o : FlushOracle) (targets : List (List String))
    (toApply : String → List Mutation) (rs prog : ResolvedStamp)
    (persisted : Option ResolvedStamp) (dcalls : List BatchCall) (e : String)
    (hb : o.beginErr = none)
    (hd : onDataLoop o toApply (targets.flatten) = (dcalls, none))
    (hc : o.commitErr = none) (hs : o.setCPErr = some e) :
    flushModel o targets toApply false rs prog persisted =
      (.callBegin true :: dcalls ++ [.callCommit true, .callSetCP prog false],
       some e, prog, persisted) := by
  unfold flushModel
  rw [hb, hd, hc, hs]

theorem flushModel_interim_ok (o : FlushOracle) (targets : List (List String))
    (toApply : String → List Mutation) (rs prog : ResolvedStamp)
    (persisted : Option ResolvedStamp) (dcalls : List BatchCall)
    (hb : o.beginErr = none)
    (hd : onDataLoop o toApply (targets.flatten) = (dcalls, none))
    (hc : o.commitErr = none) (hs : o.setCPErr = none) :
    flushModel o targets toApply false rs prog persisted =
      (.callBegin true :: dcalls ++ [.callCommit true, .callSetCP prog true],
       none, prog, some prog) := by
  unfold flushModel
  rw [hb, hd, hc, hs]

theorem lastSetCPWrite_append (init : Option ResolvedStamp) (a b : List BatchCall) :
    lastSetCPWrite init (a ++ b) = lastSetCPWrite (lastSetCPWrite init a) b := by
  unfold lastSetCPWrite
  rw [List.foldl_append]

theorem lastSetCPWrite_no_setcp (init : Option ResolvedStamp) (l : List BatchCall)
    (h : ∀ rs2, BatchCall.callSetCP rs2 true ∉ l) :
    lastSetCPWrite init l = init := by
  induction l generalizing init with
  | nil => rfl
  | cons c rest ih =>
    have hrest : ∀ rs2, BatchCall.callSetCP rs2 true ∉ rest := by
      intro rs2 hm
      exact h rs2 (List.mem_cons_of_mem c hm)
    cases c with
    | callBegin ok => exact ih init hrest
    | callData t muts ok => exact ih init hrest
    | callCommit ok => exact ih init hrest
    | callRecord ts ok => exact ih init hrest
    | callSetCP rs2 ok =>
      cases ok with
      | false => exact ih init hrest
      | true => exact absurd (List.mem_cons_self _ _) (h rs2)

theorem lastSetCPWrite_flushShape (init : Option ResolvedStamp)
    (dcalls suffix : List BatchCall)
    (h : ∀ rs2, BatchCall.callSetCP rs2 true ∉ dcalls) :
    lastSetCPWrite init (BatchCall.callBegin true :: dcalls ++ suffix) =
      lastSetCPWrite init suffix := by
  have h1 : lastSetCPWrite init (BatchCall.callBegin true :: dcalls ++ suffix) =
      lastSetCPWrite init (dcalls ++ suffix) := rfl
  rw [h1, lastSetCPWrite_append, lastSetCPWrite_no_setcp init dcalls h]

theorem flush_persist (o : FlushOracle) (targets : List (List String))
    (toApply : String → List Mutation) (final : Bool) (rs prog : ResolvedStamp)
    (persisted : Option ResolvedStamp) :
    (flushModel o targets toApply final rs prog persisted).2.2.2 =
      lastSetCPWrite persisted (flushModel o targets toApply final rs prog persisted).1 := by
  cases hb : o.beginErr with
  | some e =>
    rw [flushModel_begin_some o targets toApply final rs prog persisted e hb]
    rfl
  | none =>
    rcases hdp : onDataLoop o toApply targets.flatten with ⟨dcalls, dres⟩
    have hno : ∀ rs2, BatchCall.callSetCP rs2 true ∉ dcalls := by
      intro rs2
      have hthis := onDataLoop_no_setcp o toApply targets.flatten rs2 true
      rw [hdp] at hthis
      exact hthis
    cases dres with
    | some e =>
      rw [flushModel_data_some o targets toApply final rs prog persisted dcalls e hb hdp]
      show persisted = lastSetCPWrite persisted (BatchCall.callBegin true :: dcalls)
      have h1 : lastSetCPWrite persisted (BatchCall.callBegin true :: dcalls) =
          lastSetCPWrite persisted dcalls := rfl
      rw [h1, lastSetCPWrite_no_setcp persisted dcalls hno]
    | none =>
      cases hc : o.commitErr with
      | some e =>
        rw [flushModel_commit_some o targets toApply final rs prog persisted dcalls e hb hdp hc]
        show persisted = lastSetCPWrite persisted
          (BatchCall.callBegin true :: dcalls ++ [BatchCall.callCommit false])
        rw [lastSetCPWrite_flushShape persisted dcalls _ hno]
        rfl
      | none =>
        cases final with
        | true =>
          cases hr : o.recordErr with
          | some e =>
            rw [flushModel_final_record_some o targets toApply rs prog persisted dcalls e hb hdp hc hr]
            show persisted = lastSetCPWrite persisted
              (BatchCall.callBegin true :: dcalls ++
                [BatchCall.callCommit true,
                 BatchCall.callRecord rs.newCommitted.committedTime false])
            rw [lastSetCPWrite_flushShape persisted dcalls _ hno]
            rfl
          | none =>
            cases hs : o.setCPErr with
            | some e =>
              rw [flushModel_final_setcp_some o targets toApply rs prog persisted dcalls e hb hdp hc hr hs]
              show persisted = lastSetCPWrite persisted
                (BatchCall.callBegin true :: dcalls ++
                  [BatchCall.callCommit true,
                   BatchCall.callRecord rs.newCommitted.committedTime true,
                   BatchCall.callSetCP rs.newCommitted false])
              rw [lastSetCPWrite_flushShape persisted dcalls _ hno]
              rfl
            | none =>
              rw [flushModel_final_ok o targets toApply rs prog persisted dcalls hb hdp hc hr hs]
              show some rs.newCommitted = lastSetCPWrite persisted
                (BatchCall.callBegin true :: dcalls ++
                  [BatchCall.callCommit true,
                   BatchCall.callRecord rs.newCommitted.committedTime true,
                   BatchCall.callSetCP rs.newCommitted true])
              rw [lastSetCPWrite_flushShape persisted dcalls _ hno]
              rfl
        | false =>
          cases hs : o.setCPErr with
          | some e =>
            rw [flushModel_interim_setcp_some o targets toApply rs prog persisted dcalls e hb hdp hc hs]
            show persisted = lastSetCPWrite persisted
              (BatchCall.callBegin true :: dcalls ++
                [BatchCall.callCommit true, BatchCall.callSetCP prog false])
            rw [lastSetCPWrite_flushShape persisted dcalls _ hno]
            rfl
          | none =>
            rw [flushModel_interim_ok o targets toApply rs prog persisted dcalls hb hdp hc hs]
            show some prog = lastSetCPWrite persisted
              (BatchCall.callBegin true :: dcalls ++
                [BatchCall.callCommit true, BatchCall.callSetCP prog true])
            rw [lastSetCPWrite_flushShape persisted dcalls _ hno]
            rfl

theorem flush_fail_no_setcp (o : FlushOracle) (targets : List (List String))
    (toApply : String → List Mutation) (final : Bool) (rs prog : ResolvedStamp)
    (persisted : Option ResolvedStamp) (e : String)
    (h : (flushModel o targets toApply final rs prog persisted).2.1 = some e) :
    ∀ rs2, BatchCall.callSetCP rs2 true ∉
      (flushModel o targets toApply final rs prog persisted).1 := by
  cases hb : o.beginErr with
  | some e2 =>
    rw [flushModel_begin_some o targets toApply final rs prog persisted e2 hb]
    intro rs2 hm
    rcases List.mem_singleton.mp hm with h1
    exact BatchCall.noConfusion h1
  | none =>
    rcases hdp : onDataLoop o toApply targets.flatten with ⟨dcalls, dres⟩
    have hno : ∀ rs2, BatchCall.callSetCP rs2 true ∉ dcalls := by
      intro rs2
      have hthis := onDataLoop_no_setcp o toApply targets.flatten rs2 true
      rw [hdp] at hthis
      exact hthis
    cases dres with
    | some e2 =>
      rw [flushModel_data_some o targets toApply final rs prog persisted dcalls e2 hb hdp]
      intro rs2 hm
      rcases List.mem_cons.mp hm with h1 | h1
      · exact BatchCall.noConfusion h1
      · exact hno rs2 h1
    | none =>
      cases hc : o.commitErr with
      | some e2 =>
        rw [flushModel_commit_some o targets toApply final rs prog persisted dcalls e2 hb hdp hc]
        intro rs2 hm
        rcases List.mem_cons.mp hm with h1 | h1
        · exact BatchCall.noConfusion h1
        rcases List.mem_append.mp h1 with h2 | h2
        · exact hno rs2 h2
        · simp at h2
      | none =>
        cases final with
        | true =>
          cases hr : o.recordErr with
          | some e2 =>
            rw [flushModel_final_record_some o targets toApply rs prog persisted dcalls e2 hb hdp hc hr]
            intro rs2 hm
            rcases List.mem_cons.mp hm with h1 | h1
            · exact BatchCall.noConfusion h1
            rcases List.mem_append.mp h1 with h2 | h2
            · exact hno rs2 h2
            · simp at h2
          | none =>
            cases hs : o.setCPErr with
            | some e2 =>
              rw [flushModel_final_setcp_some o targets toApply rs prog persisted dcalls e2 hb hdp hc hr hs]
              intro rs2 hm
              rcases List.mem_cons.mp hm with h1 | h1
              · exact BatchCall.noConfusion h1
              rcases List.mem_append.mp h1 with h2 | h2
              · exact hno rs2 h2
              · simp at h2
            | none =>
              rw [flushModel_final_ok o targets toApply rs prog persisted dcalls hb hdp hc hr hs] at h
              exact absurd h (by simp)
        | false =>
          cases hs : o.setCPErr with
          | some e2 =>
            rw [flushModel_interim_setcp_some o targets toApply rs prog persisted dcalls e2 hb hdp hc hs]
            intro rs2 hm
            rcases List.mem_cons.mp hm with h1 | h1
            · exact BatchCall.noConfusion h1
            rcases List.mem_append.mp h1 with h2 | h2
            · exact hno rs2 h2
            · simp at h2
          | none =>
            rw [flushModel_interim_ok o targets toApply rs prog persisted dcalls hb hdp hc hs] at h
            exact absurd h (by simp)

theorem procGo_nil_eq (cfg : ProcCfg) (targets : List (List String))
    (oracles : Nat → FlushOracle) (st : ProcState) (calls : List BatchCall)
    (res : Option String) (rs2 : ResolvedStamp) (p2 : Option ResolvedStamp)
    (hf : flushModel (oracles st.flushIdx) targets st.toApply true st.rs
        (st.rs.newProgress st.offTable st.offKey st.offTime) st.persisted =
        (calls, res, rs2, p2)) :
    procGo cfg targets oracles [] st =
      ({ st with
          rs := rs2,
          persisted := p2,
          trace := st.trace ++ calls,
          flushIdx := st.flushIdx + 1,
          buf := [],
          batches := st.batches ++ [st.buf] },
       res) := by
  unfold procGo
  rw [hf]

theorem procGo_cons_flush_err (cfg : ProcCfg) (targets : List (List String))
    (oracles : Nat → FlushOracle) (tbl : String) (m : Mutation)
    (rest : List (String × Mutation)) (st : ProcState) (calls : List BatchCall)
    (e : String) (rs2 : ResolvedStamp) (p2 : Option ResolvedStamp)
    (hn : needsFlush cfg st.rs.backfill st.flushCounter st.epoch m.time = true)
    (hf : flushModel (oracles st.flushIdx) targets st.toApply false st.rs
        (st.rs.newProgress st.offTable st.offKey st.offTime) st.persisted =
        (calls, some e, rs2, p2)) :
    procGo cfg targets oracles ((tbl, m) :: rest) st =
      ({ st with
          rs := rs2,
          persisted := p2,
          trace := st.trace ++ calls,
          flushIdx := st.flushIdx + 1 },
       some e) := by
  unfold procGo
  rw [hn, hf]

theorem procGo_cons_flush_ok (cfg : ProcCfg) (targets : List (List String))
    (oracles : Nat → FlushOracle) (tbl : String) (m : Mutation)
    (rest : List (String × Mutation)) (st : ProcState) (calls : List BatchCall)
    (rs2 : ResolvedStamp) (p2 : Option ResolvedStamp)
    (hn : needsFlush cfg st.rs.backfill st.flushCounter st.epoch m.time = true)
    (hf : flushModel (oracles st.flushIdx) targets st.toApply false st.rs
        (st.rs.newProgress st.offTable st.offKey st.offTime) st.persisted =
        (calls, none, rs2, p2)) :
    procGo cfg targets oracles ((tbl, m) :: rest) st =
      procGo cfg targets oracles rest
        (bufferMut
          { st with
            rs := rs2,
            persisted := p2,
            trace := st.trace ++ calls,
            flushIdx := st.flushIdx + 1,
            flushCounter := 0,
            toApply := fun _ => [],
            buf := [],
            batches := st.batches ++ [st.buf] }
          tbl m) := by
  conv_lhs => rw [procGo]
  rw [hn, hf]

theorem procGo_cons_noflush (cfg : ProcCfg) (targets : List (List String))
    (oracles : Nat → FlushOracle) (tbl : String) (m : Mutation)
    (rest : List (String × Mutation)) (st : ProcState)
    (hn : needsFlush cfg st.rs.backfill st.flushCounter st.epoch m.time = false) :
    procGo cfg targets oracles ((tbl, m) :: rest) st =
      procGo cfg targets oracles rest (bufferMut st tbl m) := by
  conv_lhs => rw [procGo]
  rw [hn]

theorem procGo_persist (cfg : ProcCfg) (targets : List (List String))
    (oracles : Nat → FlushOracle) (persisted0 : Option ResolvedStamp) :
    ∀ (input : List (String × Mutation)) (st : ProcState),
    st.persisted = lastSetCPWrite persisted0 st.trace →
    (procGo cfg targets oracles input st).1.persisted =
      lastSetCPWrite persisted0 (procGo cfg targets oracles input st).1.trace := by
  intro input
  induction input with
  | nil =>
    intro st hinv
    rcases hf : flushModel (oracles st.flushIdx) targets st.toApply true st.rs
        (st.rs.newProgress st.offTable st.offKey st.offTime) st.persisted with
      ⟨calls, res, rs2, p2⟩
    rw [procGo_nil_eq cfg targets oracles st calls res rs2 p2 hf]
    show p2 = lastSetCPWrite persisted0 (st.trace ++ calls)
    have hfp := flush_persist (oracles st.flushIdx) targets st.toApply true st.rs
        (st.rs.newProgress st.offTable st.offKey st.offTime) st.persisted
    rw [hf] at hfp
    have hfp2 : p2 = lastSetCPWrite st.persisted calls := hfp
    rw [lastSetCPWrite_append, ← hinv, ← hfp2]
  | cons p rest ih =>
    rcases p with ⟨tbl, m⟩
    intro st hinv
    cases hn : needsFlush cfg st.rs.backfill st.flushCounter st.epoch m.time with
    | false =>
      rw [procGo_cons_noflush cfg targets oracles tbl m rest st hn]
      exact ih (bufferMut st tbl m) hinv
    | true =>
      rcases hf : flushModel (oracles st.flushIdx) targets st.toApply false st.rs
          (st.rs.newProgress st.offTable st.offKey st.offTime) st.persisted with
        ⟨calls, res, rs2, p2⟩
      have hfp := flush_persist (oracles st.flushIdx) targets st.toApply false st.rs
          (st.rs.newProgress st.offTable st.offKey st.offTime) st.persisted
      rw [hf] at hfp
      have hfp2 : p2 = lastSetCPWrite st.persisted calls := hfp
      cases res with
      | some e =>
        rw [procGo_cons_flush_err cfg targets oracles tbl m rest st calls e rs2 p2 hn hf]
        show p2 = lastSetCPWrite persisted0 (st.trace ++ calls)
        rw [lastSetCPWrite_append, ← hinv, ← hfp2]
      | none =>
        rw [procGo_cons_flush_ok cfg targets oracles tbl m rest st calls rs2 p2 hn hf]
        apply ih
        show p2 = lastSetCPWrite persisted0 (st.trace ++ calls)
        rw [lastSetCPWrite_append, ← hinv, ← hfp2]

theorem processModel_persist (cfg : ProcCfg) (targets : List (List String))
    (oracles : Nat → FlushOracle) (target : String) (rs : ResolvedStamp)
    (input : List (String × Mutation)) (persisted : Option ResolvedStamp) :
    (processModel cfg targets oracles target rs input persisted).1.persisted =
      lastSetCPWrite persisted (processModel cfg targets oracles target rs input persisted).1.trace := by
  unfold processModel
  by_cases ht : targets = []
  · rw [if_pos ht]
    rfl
  · rw [if_neg ht]
    exact procGo_persist cfg targets oracles persisted input (initProcState rs persisted) rfl

/-- C3: a flush step that fails (OnBegin, an OnData call, the value read
from OnCommit, Record, or SetConsistentPoint) returns its error, performs
no successful SetConsistentPoint call and leaves the persisted consistent
point exactly as it was; consequently when process returns an error, the
persisted consistent point equals the value written by the last successful
SetConsistentPoint call of its trace (the initial value when none). -/
theorem process_error_keeps_consistent_point :
    (∀ (o : FlushOracle) (targets : List (List String)) (toApply : String → List Mutation)
       (final : Bool) (rs prog : ResolvedStamp) (persisted : Option ResolvedStamp) (e : String),
       (flushModel o targets toApply final rs prog persisted).2.1 = some e →
       (flushModel o targets toApply final rs prog persisted).2.2.2 = persisted ∧
       ∀ rs2, BatchCall.callSetCP rs2 true ∉ (flushModel o targets toApply final rs prog persisted).1) ∧
    (∀ (cfg : ProcCfg) (targets : List (List String)) (oracles : Nat → FlushOracle)
       (target : String) (rs : ResolvedStamp) (input : List (String × Mutation))
       (persisted : Option ResolvedStamp) (e : String),
       (processModel cfg targets oracles target rs input persisted).2 = some e →
       (processModel cfg targets oracles target rs input persisted).1.persisted =
         lastSetCPWrite persisted (processModel cfg targets oracles target rs input persisted).1.trace) := by
  constructor
  · intro o targets toApply final rs prog persisted e he
    have hns := flush_fail_no_setcp o targets toApply final rs prog persisted e he
    refine ⟨?_, hns⟩
    rw [flush_persist o targets toApply final rs prog persisted]
    exact lastSetCPWrite_no_setcp persisted _ hns
  · intro cfg targets oracles target rs input persisted e _
    exact processModel_persist cfg targets oracles target rs input persisted

theorem process_error_keeps_consistent_point_witness :
    ((flushModel commitErrOracle [["a"]] oneMutBuffers false zeroStamp zeroStamp none).2.1 =
       some "boom") ∧
    ((flushModel commitErrOracle [["a"]] oneMutBuffers false zeroStamp zeroStamp none).2.2.2 =
       none ∧
     ∀ rs2, BatchCall.callSetCP rs2 true ∉
       (flushModel commitErrOracle [["a"]] oneMutBuffers false zeroStamp zeroStamp none).1) :=
  ⟨rfl,
   process_error_keeps_consistent_point.1 commitErrOracle [["a"]] oneMutBuffers false
     zeroStamp zeroStamp none "boom" rfl⟩

/-- C6: under a flush in which every external call succeeds, the trace is
exactly OnBegin, then one OnData per table of the flattened FK-group order
whose buffer is non-empty (in that order, empty buffers skipped), then the
awaited OnCommit, then (for the final flush) Record, then
SetConsistentPoint; the data-call sequence equals the filter-map over the
flattened table order; and whenever OnCommit delivers an error no
SetConsistentPoint call of any kind occurs. -/
theorem flush_ondata_order (o : FlushOracle) (targets : List (List String))
    (toApply : String → List Mutation) (final : Bool) (rs prog : ResolvedStamp)
    (persisted : Option ResolvedStamp) :
    ((o.beginErr = none ∧ (∀ t, o.dataErr t = none) ∧ o.commitErr = none ∧
      o.recordErr = none ∧ o.setCPErr = none) →
      flushModel o targets toApply final rs prog persisted =
        (BatchCall.callBegin true ::
          (flushDataCalls toApply targets.flatten ++
            [BatchCall.callCommit true] ++
            (if final then [BatchCall.callRecord rs.newCommitted.committedTime true] else []) ++
            [BatchCall.callSetCP (if final then rs.newCommitted else prog) true]),
         none, (if final then rs.newCommitted else prog),
         some (if final then rs.newCommitted else prog))) ∧
    (flushDataCalls toApply targets.flatten =
       (targets.flatten.filter (fun t => !decide (toApply t = []))).map
         (fun t => BatchCall.callData t (toApply t) true)) ∧
    (∀ e, o.commitErr = some e → ∀ rs2 ok,
       BatchCall.callSetCP rs2 ok ∉ (flushModel o targets toApply final rs prog persisted).1) := by
  refine ⟨?_, flushDataCalls_eq_filter_map toApply targets.flatten, ?_⟩
  · rintro ⟨h1, h2, h3, h4, h5⟩
    have hd := onDataLoop_ok o toApply h2 targets.flatten
    cases final with
    | true =>
      rw [flushModel_final_ok o targets toApply rs prog persisted
        (flushDataCalls toApply targets.flatten) h1 hd h3 h4 h5]
      simp
    | false =>
      rw [flushModel_interim_ok o targets toApply rs prog persisted
        (flushDataCalls toApply targets.flatten) h1 hd h3 h5]
      simp
  · intro e hc rs2 ok
    cases hb : o.beginErr with
    | some e2 =>
      rw [flushModel_begin_some o targets toApply final rs prog persisted e2 hb]
      intro hm
      rcases List.mem_singleton.mp hm with h1
      exact BatchCall.noConfusion h1
    | none =>
      rcases hdp : onDataLoop o toApply targets.flatten with ⟨dcalls, dres⟩
      have hnos : BatchCall.callSetCP rs2 ok ∉ dcalls := by
        have hthis := onDataLoop_no_setcp o toApply targets.flatten rs2 ok
        rw [hdp] at hthis
        exact hthis
      cases dres with
      | some e2 =>
        rw [flushModel_data_some o targets toApply final rs prog persisted dcalls e2 hb hdp]
        intro hm
        rcases List.mem_cons.mp hm with h1 | h1
        · exact BatchCall.noConfusion h1
        · exact hnos h1
      | none =>
        rw [flushModel_commit_some o targets toApply final rs prog persisted dcalls e hb hdp hc]
        intro hm
        rcases List.mem_cons.mp hm with h1 | h1
        · exact BatchCall.noConfusion h1
        rcases List.mem_append.mp h1 with h2 | h2
        · exact hnos h2
        · simp at h2

theorem flush_ondata_order_witness :
    (allOk.beginErr = none ∧ (∀ t, allOk.dataErr t = none) ∧ allOk.commitErr = none ∧
     allOk.recordErr = none ∧ allOk.setCPErr = none) ∧
    flushModel allOk [["a"], ["b", "c"]] skipBBuffers false zeroStamp zeroStamp none =
      (BatchCall.callBegin true ::
        (flushDataCalls skipBBuffers [["a"], ["b", "c"]].flatten ++
          [BatchCall.callCommit true] ++
          (if false then [BatchCall.callRecord zeroStamp.newCommitted.committedTime true] else []) ++
          [BatchCall.callSetCP (if false then zeroStamp.newCommitted else zeroStamp) true]),
       none, (if false then zeroStamp.newCommitted else zeroStamp),
       some (if false then zeroStamp.newCommitted else zeroStamp)) :=
  ⟨⟨rfl, fun _ => rfl, rfl, rfl, rfl⟩,
   (flush_ondata_order allOk [["a"], ["b", "c"]] skipBBuffers false zeroStamp zeroStamp none).1
     ⟨rfl, fun _ => rfl, rfl, rfl, rfl⟩⟩

theorem needsFlush_default (cfg : ProcCfg) (hf : cfg.flushEveryTimestamp = false)
    (counter : Nat) (epoch mt : Hlc) :
    needsFlush cfg false counter epoch mt =
      (decide (counter ≥ cfg.idealFlushBatchSize) && decide (hlcLt epoch mt)) := by
  unfold needsFlush
  rw [if_neg (by simp), hf, if_neg (by simp)]
  have hcv : decide (hlcCompare mt epoch > 0) = decide (hlcLt epoch mt) :=
    decide_eq_decide.mpr (hlc_compare_pos_iff mt epoch)
  rw [hcv]

theorem flushModel_allOk_interim (targets : List (List String))
    (toApply : String → List Mutation) (rs prog : ResolvedStamp)
    (persisted : Option ResolvedStamp) :
    flushModel allOk targets toApply false rs prog persisted =
      (BatchCall.callBegin true :: flushDataCalls toApply targets.flatten ++
        [BatchCall.callCommit true, BatchCall.callSetCP prog true],
       none, prog, some prog) :=
  flushModel_interim_ok allOk targets toApply rs prog persisted
    (flushDataCalls toApply targets.flatten) rfl
    (onDataLoop_ok allOk toApply (fun _ => rfl) targets.flatten) rfl rfl

theorem procGo_batches_sep (cfg : ProcCfg) (targets : List (List String))
    (hfet : cfg.flushEveryTimestamp = false) :
    ∀ (input : List (String × Mutation)) (st : ProcState),
    st.rs.backfill = false →
    List.Pairwise pairTimeLe input →
    (∀ q ∈ st.buf, hlcLe q.2.time st.epoch) →
    (∀ q ∈ st.buf, ∀ p ∈ input, hlcLe q.2.time p.2.time) →
    (∀ b ∈ st.batches, ∀ m1 ∈ b, ∀ m2 ∈ st.buf, hlcLt m1.2.time m2.2.time) →
    (∀ b ∈ st.batches, ∀ m1 ∈ b, ∀ p ∈ input, hlcLt m1.2.time p.2.time) →
    List.Pairwise batchSep st.batches →
    List.Pairwise batchSep ((procGo cfg targets (fun _ => allOk) input st).1.batches) := by
  intro input
  induction input with
  | nil =>
    intro st hb hs h3 h4 h5 h6 h7
    rcases hfm : flushModel ((fun _ => allOk) st.flushIdx) targets st.toApply true st.rs
        (st.rs.newProgress st.offTable st.offKey st.offTime) st.persisted with
      ⟨calls, res, rs2, p2⟩
    rw [procGo_nil_eq cfg targets (fun _ => allOk) st calls res rs2 p2 hfm]
    show List.Pairwise batchSep (st.batches ++ [st.buf])
    rw [List.pairwise_append]
    refine ⟨h7, List.pairwise_singleton _ _, ?_⟩
    intro b hbm b' hb'
    rw [List.mem_singleton] at hb'
    subst hb'
    intro m1 hm1 m2 hm2
    exact h5 b hbm m1 hm1 m2 hm2
  | cons p rest ih =>
    rcases p with ⟨tbl, m⟩
    intro st hb hs h3 h4 h5 h6 h7
    have hhead : ∀ q ∈ rest, hlcLe m.time q.2.time := by
      intro q hq
      exact (List.pairwise_cons.mp hs).1 q hq
    have hrest : List.Pairwise pairTimeLe rest := (List.pairwise_cons.mp hs).2
    cases hn : needsFlush cfg st.rs.backfill st.flushCounter st.epoch m.time with
    | false =>
      rw [procGo_cons_noflush cfg targets (fun _ => allOk) tbl m rest st hn]
      apply ih (bufferMut st tbl m) hb hrest
      · intro q hq
        rcases List.mem_append.mp hq with hq2 | hq2
        · exact h4 q hq2 (tbl, m) (List.mem_cons_self _ _)
        · rw [List.mem_singleton] at hq2
          subst hq2
          exact hlc_le_refl _
      · intro q hq p2 hp2
        rcases List.mem_append.mp hq with hq2 | hq2
        · exact h4 q hq2 p2 (List.mem_cons_of_mem _ hp2)
        · rw [List.mem_singleton] at hq2
          subst hq2
          exact hhead p2 hp2
      · intro b hbm m1 hm1 m2 hm2
        rcases List.mem_append.mp hm2 with hm3 | hm3
        · exact h5 b hbm m1 hm1 m2 hm3
        · rw [List.mem_singleton] at hm3
          subst hm3
          exact h6 b hbm m1 hm1 (tbl, m) (List.mem_cons_self _ _)
      · intro b hbm m1 hm1 p2 hp2
        exact h6 b hbm m1 hm1 p2 (List.mem_cons_of_mem _ hp2)
      · exact h7
    | true =>
      have hlt : hlcLt st.epoch m.time := by
        rw [hb, needsFlush_default cfg hfet] at hn
        simp only [Bool.and_eq_true, decide_eq_true_eq] at hn
        exact hn.2
      rw [procGo_cons_flush_ok cfg targets (fun _ => allOk) tbl m rest st _ _ _ hn
        (flushModel_allOk_interim targets st.toApply st.rs
          (st.rs.newProgress st.offTable st.offKey st.offTime) st.persisted)]
      refine ih _ ?_ hrest ?_ ?_ ?_ ?_ ?_
      · exact hb
      · intro q hq
        rcases List.mem_append.mp hq with hq2 | hq2
        · exact absurd hq2 (List.not_mem_nil q)
        · rw [List.mem_singleton] at hq2
          subst hq2
          exact hlc_le_refl _
      · intro q hq p2 hp2
        rcases List.mem_append.mp hq with hq2 | hq2
        · exact absurd hq2 (List.not_mem_nil q)
        · rw [List.mem_singleton] at hq2
          subst hq2
          exact hhead p2 hp2
      · intro b hbm m1 hm1 m2 hm2
        rcases List.mem_append.mp hm2 with hm3 | hm3
        · exact absurd hm3 (List.not_mem_nil m2)
        rw [List.mem_singleton] at hm3
        subst hm3
        rcases List.mem_append.mp hbm with hb2 | hb2
        · exact h6 b hb2 m1 hm1 (tbl, m) (List.mem_cons_self _ _)
        · rw [List.mem_singleton] at hb2
          subst hb2
          exact hlc_le_lt_trans (h3 m1 hm1) hlt
      · intro b hbm m1 hm1 p2 hp2
        rcases List.mem_append.mp hbm with hb2 | hb2
        · exact h6 b hb2 m1 hm1 p2 (List.mem_cons_of_mem _ hp2)
        · rw [List.mem_singleton] at hb2
          subst hb2
          exact hlc_lt_le_trans (hlc_le_lt_trans (h3 m1 hm1) hlt) (hhead p2 hp2)
      · show List.Pairwise batchSep (st.batches ++ [st.buf])
        rw [List.pairwise_append]
        refine ⟨h7, List.pairwise_singleton _ _, ?_⟩
        intro b hbm b' hb'
        rw [List.mem_singleton] at hb'
        subst hb'
        intro m1 hm1 m2 hm2
        exact h5 b hbm m1 hm1 m2 hm2

/-- C4: in default transactional mode (Backfill false, FlushEveryTimestamp
false), the interim-flush decision taken before buffering a mutation is
exactly "at least IdealFlushBatchSize mutations buffered since the last
flush and the mutation's time strictly greater than the epoch (the time of
the last buffered mutation)"; consequently, over any time-sorted delivery,
distinct flushed batches are strictly separated in time, so the mutations
of one HLC epoch are never split across flushes. -/
theorem process_default_epoch_batching (cfg : ProcCfg) (targets : List (List String))
    (target : String) (rs : ResolvedStamp) (input : List (String × Mutation))
    (persisted : Option ResolvedStamp)
    (hb : rs.backfill = false) (hfet : cfg.flushEveryTimestamp = false)
    (hs : List.Pairwise pairTimeLe input) :
    (∀ counter epoch mt, needsFlush cfg false counter epoch mt =
       (decide (counter ≥ cfg.idealFlushBatchSize) && decide (hlcLt epoch mt))) ∧
    List.Pairwise batchSep
      ((processModel cfg targets (fun _ => allOk) target rs input persisted).1.batches) := by
  refine ⟨fun counter epoch mt => needsFlush_default cfg hfet counter epoch mt, ?_⟩
  unfold processModel
  by_cases ht : targets = []
  · rw [if_pos ht]
    exact List.Pairwise.nil
  · rw [if_neg ht]
    refine procGo_batches_sep cfg targets hfet input (initProcState rs persisted) hb hs
      ?_ ?_ ?_ ?_ ?_
    · intro q hq
      exact absurd hq (List.not_mem_nil q)
    · intro q hq
      exact absurd hq (List.not_mem_nil q)
    · intro b hbm
      exact absurd hbm (List.not_mem_nil b)
    · intro b hbm
      exact absurd hbm (List.not_mem_nil b)
    · exact List.Pairwise.nil

theorem process_default_epoch_batching_witness :
    (zeroStamp.backfill = false ∧ (⟨2, false⟩ : ProcCfg).flushEveryTimestamp = false ∧
     List.Pairwise pairTimeLe [("a", (⟨[], [107], ⟨1, 0⟩⟩ : Mutation))]) ∧
    ((∀ counter epoch mt, needsFlush ⟨2, false⟩ false counter epoch mt =
        (decide (counter ≥ (⟨2, false⟩ : ProcCfg).idealFlushBatchSize) &&
         decide (hlcLt epoch mt))) ∧
     List.Pairwise batchSep
       ((processModel ⟨2, false⟩ [["a"]] (fun _ => allOk) "s" zeroStamp
           [("a", ⟨[], [107], ⟨1, 0⟩⟩)] none).1.batches)) :=
  ⟨⟨rfl, rfl, List.pairwise_singleton _ _⟩,
   process_default_epoch_batching ⟨2, false⟩ [["a"]] "s" zeroStamp
     [("a", ⟨[], [107], ⟨1, 0⟩⟩)] none rfl rfl (List.pairwise_singleton _ _)⟩

theorem findByKey_none (reps : List Mutation) (k : List UInt8)
    (h : findByKey reps k = none) : ∀ r ∈ reps, r.key ≠ k := by
  induction reps with
  | nil =>
    intro r hr
    exact absurd hr (List.not_mem_nil r)
  | cons c rest ih =>
    unfold findByKey at h
    by_cases hc : c.key = k
    · rw [if_pos hc] at h
      exact absurd h (by simp)
    · rw [if_neg hc] at h
      intro r hr
      rcases List.mem_cons.mp hr with hr2 | hr2
      · subst hr2
        exact hc
      · exact ih h r hr2

theorem findByKey_some (reps : List Mutation) (k : List UInt8) (cur : Mutation)
    (h : findByKey reps k = some cur) : cur ∈ reps ∧ cur.key = k := by
  induction reps with
  | nil => simp [findByKey] at h
  | cons c rest ih =>
    unfold findByKey at h
    by_cases hc : c.key = k
    · rw [if_pos hc] at h
      injection h with h2
      subst h2
      exact ⟨List.mem_cons_self _ _, hc⟩
    · rw [if_neg hc] at h
      obtain ⟨h1, h2⟩ := ih h
      exact ⟨List.mem_cons_of_mem _ h1, h2⟩

theorem replaceByKey_mem_of_found (reps : List Mutation) (k : List UInt8)
    (m cur : Mutation) (h : findByKey reps k = some cur) :
    m ∈ replaceByKey reps k m := by
  induction reps with
  | nil => simp [findByKey] at h
  | cons c rest ih =>
    unfold findByKey at h
    unfold replaceByKey
    by_cases hc : c.key = k
    · rw [if_pos hc]
      exact List.mem_cons_self _ _
    · rw [if_neg hc] at h
      rw [if_neg hc]
      exact List.mem_cons_of_mem _ (ih h)

theorem replaceByKey_subset (reps : List Mutation) (k : List UInt8) (m : Mutation) :
    ∀ r ∈ replaceByKey reps k m, r ∈ reps ∨ r = m := by
  induction reps with
  | nil =>
    intro r hr
    simp [replaceByKey] at hr
  | cons c rest ih =>
    unfold replaceByKey
    by_cases hc : c.key = k
    · rw [if_pos hc]
      intro r hr
      rcases List.mem_cons.mp hr with hr2 | hr2
      · exact Or.inr hr2
      · exact Or.inl (List.mem_cons_of_mem _ hr2)
    · rw [if_neg hc]
      intro r hr
      rcases List.mem_cons.mp hr with hr2 | hr2
      · subst hr2
        exact Or.inl (List.mem_cons_self _ _)
      · rcases ih r hr2 with hr3 | hr3
        · exact Or.inl (List.mem_cons_of_mem _ hr3)
        · exact Or.inr hr3

theorem replaceByKey_keys (reps : List Mutation) (k : List UInt8) (m : Mutation)
    (hm : m.key = k) :
    (replaceByKey reps k m).map Mutation.key = reps.map Mutation.key := by
  induction reps with
  | nil => rfl
  | cons c rest ih =>
    unfold replaceByKey
    by_cases hc : c.key = k
    · rw [if_pos hc]
      rw [List.map_cons, List.map_cons, hm, hc]
    · rw [if_neg hc]
      rw [List.map_cons, List.map_cons, ih]

theorem replaceByKey_mem_other (reps : List Mutation) (k : List UInt8) (m : Mutation) :
    ∀ r ∈ reps, r.key ≠ k → r ∈ replaceByKey reps k m := by
  induction reps with
  | nil =>
    intro r hr
    exact absurd hr (List.not_mem_nil r)
  | cons c rest ih =>
    unfold replaceByKey
    by_cases hc : c.key = k
    · rw [if_pos hc]
      intro r hr hrk
      rcases List.mem_cons.mp hr with hr2 | hr2
      · subst hr2
        exact absurd hc hrk
      · exact List.mem_cons_of_mem _ hr2
    · rw [if_neg hc]
      intro r hr hrk
      rcases List.mem_cons.mp hr with hr2 | hr2
      · subst hr2
        exact List.mem_cons_self _ _
      · exact List.mem_cons_of_mem _ (ih r hr2 hrk)

theorem nodup_key_unique (l : List Mutation) (h : List.Nodup (l.map Mutation.key)) :
    ∀ a ∈ l, ∀ b ∈ l, a.key = b.key → a = b := by
  induction l with
  | nil =>
    intro a ha
    exact absurd ha (List.not_mem_nil a)
  | cons c rest ih =>
    rw [List.map_cons] at h
    obtain ⟨hnotin, hnd⟩ := List.nodup_cons.mp h
    intro a ha b hb hk
    rcases List.mem_cons.mp ha with ha2 | ha2 <;> rcases List.mem_cons.mp hb with hb2 | hb2
    · subst ha2
      subst hb2
      rfl
    · subst ha2
      exfalso
      apply hnotin
      rw [hk]
      exact List.mem_map_of_mem Mutation.key hb2
    · subst hb2
      exfalso
      apply hnotin
      rw [← hk]
      exact List.mem_map_of_mem Mutation.key ha2
    · exact ih hnd a ha2 b hb2 hk

theorem uniqueByKeyGo_cons_empty (m : Mutation) (todo reps : List Mutation)
    (hk : m.key = []) :
    uniqueByKeyGo (m :: todo) reps = none := by
  unfold uniqueByKeyGo
  rw [if_pos hk]

theorem uniqueByKeyGo_cons_found (m : Mutation) (todo reps : List Mutation)
    (cur : Mutation) (hk : ¬ m.key = []) (hfind : findByKey reps m.key = some cur) :
    uniqueByKeyGo (m :: todo) reps =
      if hlcCompare m.time cur.time > 0 then
        uniqueByKeyGo todo (replaceByKey reps m.key m)
      else uniqueByKeyGo todo reps := by
  conv_lhs => rw [uniqueByKeyGo]
  rw [if_neg hk, hfind]

theorem uniqueByKeyGo_cons_new (m : Mutation) (todo reps : List Mutation)
    (hk : ¬ m.key = []) (hfind : findByKey reps m.key = none) :
    uniqueByKeyGo (m :: todo) reps = uniqueByKeyGo todo (m :: reps) := by
  conv_lhs => rw [uniqueByKeyGo]
  rw [if_neg hk, hfind]

theorem uniqueByKeyGo_spec :
    ∀ (todo reps out : List Mutation),
    uniqueByKeyGo todo reps = some out →
    List.Nodup (reps.map Mutation.key) →
    List.Nodup (out.map Mutation.key) ∧
    (∀ r ∈ out, r ∈ todo ∨ r ∈ reps) ∧
    (∀ m ∈ todo, covers out m) ∧
    (∀ r ∈ reps, covers out r) := by
  intro todo
  induction todo with
  | nil =>
    intro reps out h hnd
    injection h with h2
    subst h2
    refine ⟨hnd, fun r hr => Or.inr hr, ?_, fun r hr => ⟨r, hr, rfl, hlc_le_refl _⟩⟩
    intro m hm
    exact absurd hm (List.not_mem_nil m)
  | cons m todo ih =>
    intro reps out h hnd
    by_cases hk : m.key = []
    · rw [uniqueByKeyGo_cons_empty m todo reps hk] at h
      exact absurd h (by simp)
    cases hfind : findByKey reps m.key with
    | some cur =>
      rw [uniqueByKeyGo_cons_found m todo reps cur hk hfind] at h
      obtain ⟨hcur_mem, hcur_key⟩ := findByKey_some reps m.key cur hfind
      by_cases hcmp : hlcCompare m.time cur.time > 0
      · rw [if_pos hcmp] at h
        have hnd2 : List.Nodup ((replaceByKey reps m.key m).map Mutation.key) := by
          rw [replaceByKey_keys reps m.key m rfl]
          exact hnd
        obtain ⟨o1, o2, o3, o4⟩ := ih (replaceByKey reps m.key m) out h hnd2
        have hcovm : covers out m :=
          o4 m (replaceByKey_mem_of_found reps m.key m cur hfind)
        refine ⟨o1, ?_, ?_, ?_⟩
        · intro r hr
          rcases o2 r hr with hr2 | hr2
          · exact Or.inl (List.mem_cons_of_mem _ hr2)
          · rcases replaceByKey_subset reps m.key m r hr2 with hr3 | hr3
            · exact Or.inr hr3
            · subst hr3
              exact Or.inl (List.mem_cons_self _ _)
        · intro m2 hm2
          rcases List.mem_cons.mp hm2 with hm3 | hm3
          · rw [hm3]
            exact hcovm
          · exact o3 m2 hm3
        · intro r hr
          by_cases hrk : r.key = m.key
          · have hr_cur : r = cur :=
              nodup_key_unique reps hnd r hr cur hcur_mem (hrk.trans hcur_key.symm)
            obtain ⟨r2, hr2mem, hr2key, hle⟩ := hcovm
            have hltc : hlcLt cur.time m.time := (hlc_compare_pos_iff m.time cur.time).mp hcmp
            refine ⟨r2, hr2mem, ?_, ?_⟩
            · rw [hr2key, hrk]
            · rw [hr_cur]
              exact hlc_le_trans (hlc_lt_le hltc) hle
          · exact o4 r (replaceByKey_mem_other reps m.key m r hr hrk)
      · rw [if_neg hcmp] at h
        obtain ⟨o1, o2, o3, o4⟩ := ih reps out h hnd
        refine ⟨o1, ?_, ?_, o4⟩
        · intro r hr
          rcases o2 r hr with h2 | h2
          · exact Or.inl (List.mem_cons_of_mem _ h2)
          · exact Or.inr h2
        · intro m2 hm2
          rcases List.mem_cons.mp hm2 with hm3 | hm3
          · rw [hm3]
            obtain ⟨r2, hr2mem, hr2key, hle⟩ := o4 cur hcur_mem
            have hmle : hlcLe m.time cur.time := by
              apply hlc_not_lt_le
              intro hcontra
              exact hcmp ((hlc_compare_pos_iff m.time cur.time).mpr hcontra)
            exact ⟨r2, hr2mem, by rw [hr2key, hcur_key], hlc_le_trans hmle hle⟩
          · exact o3 m2 hm3
    | none =>
      rw [uniqueByKeyGo_cons_new m todo reps hk hfind] at h
      have hknotin : m.key ∉ reps.map Mutation.key := by
        intro hmem
        rcases List.mem_map.mp hmem with ⟨r, hr, hrk⟩
        exact (findByKey_none reps m.key hfind r hr) hrk
      have hnd2 : List.Nodup ((m :: reps).map Mutation.key) := by
        rw [List.map_cons]
        exact List.nodup_cons.mpr ⟨hknotin, hnd⟩
      obtain ⟨o1, o2, o3, o4⟩ := ih (m :: reps) out h hnd2
      refine ⟨o1, ?_, ?_, ?_⟩
      · intro r hr
        rcases o2 r hr with h2 | h2
        · exact Or.inl (List.mem_cons_of_mem _ h2)
        · rcases List.mem_cons.mp h2 with h3 | h3
          · subst h3
            exact Or.inl (List.mem_cons_self _ _)
          · exact Or.inr h3
      · intro m2 hm2
        rcases List.mem_cons.mp hm2 with hm3 | hm3
        · rw [hm3]
          exact o4 m (List.mem_cons_self _ _)
        · exact o3 m2 hm3
      · intro r hr
        exact o4 r (List.mem_cons_of_mem _ hr)

theorem uniqueByKeyGo_none_of_empty_key :
    ∀ (todo reps : List Mutation), (∃ m ∈ todo, m.key = []) →
    uniqueByKeyGo todo reps = none := by
  intro todo
  induction todo with
  | nil =>
    intro reps h
    rcases h with ⟨m, hm, _⟩
    exact absurd hm (List.not_mem_nil m)
  | cons m todo ih =>
    intro reps h
    by_cases hk : m.key = []
    · exact uniqueByKeyGo_cons_empty m todo reps hk
    · have hrest : ∃ m2 ∈ todo, m2.key = [] := by
        rcases h with ⟨m2, hm2, hk2⟩
        rcases List.mem_cons.mp hm2 with hm3 | hm3
        · rw [hm3] at hk2
          exact absurd hk2 hk
        · exact ⟨m2, hm3, hk2⟩
      cases hfind : findByKey reps m.key with
      | some cur =>
        rw [uniqueByKeyGo_cons_found m todo reps cur hk hfind]
        by_cases hcmp : hlcCompare m.time cur.time > 0
        · rw [if_pos hcmp]
          exact ih _ hrest
        · rw [if_neg hcmp]
          exact ih _ hrest
      | none =>
        rw [uniqueByKeyGo_cons_new m todo reps hk hfind]
        exact ih _ hrest

theorem uniqueByKeyGo_some_of_nonempty :
    ∀ (todo : List Mutation), (∀ m ∈ todo, m.key ≠ []) →
    ∀ reps, ∃ out, uniqueByKeyGo todo reps = some out := by
  intro todo
  induction todo with
  | nil =>
    intro _ reps
    exact ⟨reps, rfl⟩
  | cons m todo ih =>
    intro h reps
    have hk : m.key ≠ [] := h m (List.mem_cons_self _ _)
    have hrest : ∀ m2 ∈ todo, m2.key ≠ [] := by
      intro m2 hm2
      exact h m2 (List.mem_cons_of_mem _ hm2)
    cases hfind : findByKey reps m.key with
    | some cur =>
      rw [uniqueByKeyGo_cons_found m todo reps cur hk hfind]
      by_cases hcmp : hlcCompare m.time cur.time > 0
      · rw [if_pos hcmp]
        exact ih hrest _
      · rw [if_neg hcmp]
        exact ih hrest _
    | none =>
      rw [uniqueByKeyGo_cons_new m todo reps hk hfind]
      exact ih hrest _

/-- C9: when every input mutation has a non-empty Key, UniqueByKey keeps
each distinct Key exactly once (the output keys are pairwise distinct and
every input key appears), each retained mutation comes from the input, and
the retained mutation for a key carries a time at least that of every input
mutation with that key (a maximum, with ties broken arbitrarily); when some
input mutation has an empty Key, the function panics. -/
theorem uniqueByKey_last_wins (x : List Mutation) :
    ((∃ m ∈ x, m.key = []) → UniqueByKey x = none) ∧
    ((∀ m ∈ x, m.key ≠ []) →
      ∃ out, UniqueByKey x = some out ∧
        List.Nodup (out.map Mutation.key) ∧
        (∀ r ∈ out, r ∈ x) ∧
        (∀ m ∈ x, ∃ r ∈ out, r.key = m.key) ∧
        (∀ r ∈ out, ∀ m ∈ x, m.key = r.key → hlcLe m.time r.time)) := by
  constructor
  · intro h
    rcases h with ⟨m, hm, hk⟩
    exact uniqueByKeyGo_none_of_empty_key x.reverse []
      ⟨m, List.mem_reverse.mpr hm, hk⟩
  · intro hne
    obtain ⟨out, hout⟩ := uniqueByKeyGo_some_of_nonempty x.reverse
      (fun m hm => hne m (List.mem_reverse.mp hm)) []
    obtain ⟨o1, o2, o3, _⟩ := uniqueByKeyGo_spec x.reverse [] out hout (by simp)
    refine ⟨out, hout, o1, ?_, ?_, ?_⟩
    · intro r hr
      rcases o2 r hr with h2 | h2
      · exact List.mem_reverse.mp h2
      · exact absurd h2 (List.not_mem_nil r)
    · intro m hm
      obtain ⟨r, hrmem, hrkey, _⟩ := o3 m (List.mem_reverse.mpr hm)
      exact ⟨r, hrmem, hrkey⟩
    · intro r hr m hm hkey
      obtain ⟨r2, hr2mem, hr2key, hle⟩ := o3 m (List.mem_reverse.mpr hm)
      have hr2r : r2 = r :=
        nodup_key_unique out o1 r2 hr2mem r hr (hr2key.trans hkey)
      rw [← hr2r]
      exact hle

theorem uniqueByKey_last_wins_witness :
    (∀ m ∈ [(⟨[49], [107], ⟨1, 0⟩⟩ : Mutation), ⟨[50], [107], ⟨2, 0⟩⟩,
            ⟨[51], [106], ⟨1, 0⟩⟩], m.key ≠ []) ∧
    (∃ out, UniqueByKey [(⟨[49], [107], ⟨1, 0⟩⟩ : Mutation), ⟨[50], [107], ⟨2, 0⟩⟩,
            ⟨[51], [106], ⟨1, 0⟩⟩] = some out ∧
      List.Nodup (out.map Mutation.key) ∧
      (∀ r ∈ out, r ∈ [(⟨[49], [107], ⟨1, 0⟩⟩ : Mutation), ⟨[50], [107], ⟨2, 0⟩⟩,
            ⟨[51], [106], ⟨1, 0⟩⟩]) ∧
      (∀ m ∈ [(⟨[49], [107], ⟨1, 0⟩⟩ : Mutation), ⟨[50], [107], ⟨2, 0⟩⟩,
            ⟨[51], [106], ⟨1, 0⟩⟩], ∃ r ∈ out, r.key = m.key) ∧
      (∀ r ∈ out, ∀ m ∈ [(⟨[49], [107], ⟨1, 0⟩⟩ : Mutation), ⟨[50], [107], ⟨2, 0⟩⟩,
            ⟨[51], [106], ⟨1, 0⟩⟩], m.key = r.key → hlcLe m.time r.time)) :=
  ⟨by decide,
   (uniqueByKey_last_wins [⟨[49], [107], ⟨1, 0⟩⟩, ⟨[50], [107], ⟨2, 0⟩⟩,
      ⟨[51], [106], ⟨1, 0⟩⟩]).2 (by decide)⟩
